import Mathlib

/-!
Verification of the tournament-ranking core of `generate-and-rank.py`.

The embedding models the ranking pipeline of the source file:

* `pick_one` embeds `IdeaPicker._pick_one`: the judge response text is
  scanned for the first occurrence of the pattern CHOICE(n) (the Python
  code uses a regular expression search); the 1-indexed integer is
  converted to a 0-indexed position and bounds-checked.
* `pick_one_with_retry` embeds `IdeaPicker._pick_one_with_retry`.
* `rank` embeds `IdeaPicker.rank`.

External nondeterminism is made explicit:

* `oracle : Nat -> List String -> List Char` returns the raw judge
  response text of the k-th LLM call of the run, given the group of
  ideas posed on that call (the Python code builds the prompt from the
  group and calls the judge; the response may depend on both).
* `shuffle : Nat -> List String -> List String` returns the result of
  the in-place `random.shuffle` performed at the start of the given
  round.  Theorems that need it assume each `shuffle r` produces a
  permutation of its argument.

The Python `while` loop is embedded with an explicit fuel argument
equal to the length of the input list; the termination theorem shows
this fuel is sufficient (the loop exits with at most one active
candidate) whenever the group size is at least 2 and the shuffle is a
permutation, which is exactly the termination argument for the source
loop.
-/

/-- ASCII digit test, matching the digits accepted by the regular
expression class used in the source pattern for ASCII text. -/
def isDigitChar (c : Char) : Bool := c.isDigit

/-- Numeric value of a digit string, as Python `int` on a nonempty
string of decimal digits. -/
def digitsToNat (ds : List Char) : Nat :=
  ds.foldl (fun a c => 10 * a + (c.toNat - '0'.toNat)) 0

/-- The literal characters that must precede the digits in the marker,
`CHOICE(`. -/
def choiceLit : List Char := ['C', 'H', 'O', 'I', 'C', 'E', '(']

/-- Attempt to match the pattern CHOICE(digits) at the start of `s`:
the literal `CHOICE(`, then a nonempty maximal run of digits, then a
closing parenthesis.  Returns the integer value of the digits. -/
def matchChoiceAt (s : List Char) : Option Nat :=
  if choiceLit.isPrefixOf s then
    let rest := s.drop choiceLit.length
    let ds := rest.takeWhile isDigitChar
    if ds.isEmpty then none
    else
      match rest.dropWhile isDigitChar with
      | ')' :: _ => some (digitsToNat ds)
      | _ => none
  else none

/-- Leftmost match of the pattern CHOICE(digits) in the text, as the
`re.search` call of `_pick_one`: try to match at each position from the
left and return the integer of the first full match. -/
def findChoice : List Char → Option Nat
  | [] => none
  | c :: cs =>
    match matchChoiceAt (c :: cs) with
    | some n => some n
    | none => findChoice cs

/-- Embeds `IdeaPicker._pick_one`, given the judge response text `txt`.
The Python code searches the response for CHOICE(n), subtracts 1, and
returns `None` when the marker is absent or the 0-indexed position is
out of range.  (The `choice.group(1) is None` branch of the source is
dead code: group 1 always exists on a successful match.) -/
def pick_one (ideas : List String) (txt : List Char) : Option String :=
  match findChoice txt with
  | none => none
  | some n =>
    let choice_int : Int := (n : Int) - 1
    if choice_int < 0 ∨ (ideas.length : Int) ≤ choice_int then none
    else ideas[choice_int.toNat]?

/-- Embeds `IdeaPicker._pick_one_with_retry`: up to `retries` attempts,
each posing the same group; the `k`-th LLM call of the run receives the
response `oracle k ideas`.  Returns the first non-`none` choice together
with the next unused call index. -/
def pick_one_with_retry (oracle : Nat → List String → List Char)
    (ideas : List String) : Nat → Nat → Option String × Nat
  | 0, k => (none, k)
  | retries + 1, k =>
    match pick_one ideas (oracle k ideas) with
    | some c => (some c, k + 1)
    | none => pick_one_with_retry oracle ideas retries (k + 1)

/-- Recursion core of `groupsOf` with explicit fuel (an upper bound on
the number of groups); structural in the fuel so that the function
evaluates by kernel reduction. -/
def groupsOfAux {α : Type} (n : Nat) : Nat → List α → List (List α)
  | _, [] => []
  | 0, _ :: _ => []
  | fuel + 1, x :: xs => ((x :: xs).take n) :: groupsOfAux n fuel ((x :: xs).drop n)

/-- Embeds the grouping loop `for i in range(0, len(ideas), max_compare_together)`
with slices `ideas[i:i+max_compare_together]`: contiguous chunks of size `n`,
the last possibly shorter.  For `n = 0` the Python `range` call raises
`ValueError`; that case is modelled as no groups and is outside every claim
(the source always uses the default group size 4). -/
def groupsOf {α : Type} (n : Nat) (l : List α) : List (List α) :=
  if n = 0 then [] else groupsOfAux n l.length l

/-- First-occurrence deduplication: the key order of a Python dict built
by insertion from a list. -/
def firstDedup : List String → List String
  | [] => []
  | x :: xs => x :: (firstDedup xs).filter (fun y => y ≠ x)

/-- Embeds the dict comprehension at the head of `rank`:
all distinct ideas in first-occurrence order, each bound to the value 0
(duplicate ideas rewrite the same entry with the same value 0, so the
resulting dict is exactly the first-occurrence keys each at 0). -/
def initScores (ideas : List String) : List (String × Nat) :=
  (firstDedup ideas).map (fun s => (s, 0))

/-- Key membership in the score table, as the Python `in`-test performed
implicitly by `scores[best] += 1` (present key: increment; absent key:
`KeyError`). -/
def hasKey (scores : List (String × Nat)) (s : String) : Bool :=
  scores.any (fun p => p.1 == s)

/-- Increment the entry of key `s` in the score table, leaving the
entry order unchanged, as a Python dict update of an existing key. -/
def incScore (s : String) : List (String × Nat) → List (String × Nat)
  | [] => []
  | p :: rest => if p.1 == s then (p.1, p.2 + 1) :: rest else p :: incScore s rest

/-- Score lookup with default 0 (the table holds every candidate from
initialization, so the default is only a totalization device). -/
def getScore (scores : List (String × Nat)) (s : String) : Nat :=
  match scores.find? (fun p => p.1 == s) with
  | some p => p.2
  | none => 0

/-- Sum of all scores in the table. -/
def scoreSum (scores : List (String × Nat)) : Nat :=
  (scores.map Prod.snd).sum

/-- State carried through one round of the group loop in `rank`:
the winners accumulated so far, the score table, the number of LLM
calls made so far in the run, and the number of times the defensive
`except KeyError` branch has fired. -/
structure RoundState where
  winners : List String
  scores : List (String × Nat)
  calls : Nat
  keyErrors : Nat
deriving Repr, DecidableEq

/-- Decision for one group, as the body of the group loop in `rank`:
a singleton group auto-advances without consulting the oracle; any
other group is decided by `_pick_one_with_retry` with the source
default of 5 retries. -/
def groupDecision (oracle : Nat → List String → List Char)
    (g : List String) (k : Nat) : Option String × Nat :=
  match g with
  | [x] => (some x, k)
  | _ => pick_one_with_retry oracle g 5 k

/-- Effect of one group on the round state, as the body of the group
loop in `rank`: no decision leaves winners and scores unchanged; a
decision increments the winner's score and appends it to the winners,
unless the key is missing, in which case the `except KeyError` branch
skips both and logs a warning (counted in `keyErrors`). -/
def processGroup (oracle : Nat → List String → List Char)
    (st : RoundState) (g : List String) : RoundState :=
  match groupDecision oracle g st.calls with
  | (none, kk) => RoundState.mk st.winners st.scores kk st.keyErrors
  | (some b, kk) =>
    if hasKey st.scores b then
      RoundState.mk (st.winners ++ [b]) (incScore b st.scores) kk st.keyErrors
    else
      RoundState.mk st.winners st.scores kk (st.keyErrors + 1)

/-- The group loop of one round, processed left to right. -/
def processGroups (oracle : Nat → List String → List Char) :
    List (List String) → RoundState → RoundState
  | [], st => st
  | g :: gs, st => processGroups oracle gs (processGroup oracle st g)

/-- One full round of `rank` on the already-shuffled active list. -/
def processRound (oracle : Nat → List String → List Char) (gsize : Nat)
    (shuffled : List String) (scores : List (String × Nat))
    (k ke : Nat) : RoundState :=
  processGroups oracle (groupsOf gsize shuffled) (RoundState.mk [] scores k ke)

/-- The decision of each group of a round in order, threading the call
counter exactly as the group loop does.  Used to state how many groups
of a round produced a winner. -/
def groupDecisions (oracle : Nat → List String → List Char) :
    Nat → List (List String) → List (Option String)
  | _, [] => []
  | k, g :: gs =>
    (groupDecision oracle g k).1 :: groupDecisions oracle (groupDecision oracle g k).2 gs

/-- State of the while loop of `rank` between rounds. -/
structure RankState where
  active : List String
  scores : List (String × Nat)
  roundNumber : Nat
  calls : Nat
  keyErrors : Nat
deriving Repr, DecidableEq

/-- The while loop of `rank`, with explicit fuel bounding the number of
rounds.  `rank` supplies fuel equal to the input length, which the
termination theorem shows is sufficient under the source's operating
conditions (group size at least 2 and a permuting shuffle). -/
def rankLoop (oracle : Nat → List String → List Char)
    (shuffle : Nat → List String → List String) (gsize : Nat) :
    Nat → RankState → RankState
  | 0, st => st
  | fuel + 1, st =>
    if st.active.length ≤ 1 then st
    else
      let r := processRound oracle gsize (shuffle st.roundNumber st.active)
        st.scores st.calls st.keyErrors
      rankLoop oracle shuffle gsize fuel
        (RankState.mk r.winners r.scores (st.roundNumber + 1) r.calls r.keyErrors)

/-- Stable descending insertion by score: the new pair goes in front of
the first entry whose score is less than or equal to its own, so among
equal scores earlier entries stay earlier. -/
def insertDesc (p : String × Nat) : List (String × Nat) → List (String × Nat)
  | [] => [p]
  | q :: rest => if q.2 ≤ p.2 then p :: q :: rest else q :: insertDesc p rest

/-- Embeds the final `sorted(scores.items(), key=lambda x: x[1], reverse=True)`:
Python `sorted` is a stable sort, here realized as a stable insertion
sort by descending score (extensionally equal to any stable descending
sort by score). -/
def pySorted (l : List (String × Nat)) : List (String × Nat) :=
  l.foldr insertDesc []

/-- The observable outcome of one `rank` call.  `callerList` records the
content of the list object the caller passed in after `rank` returns:
`random.shuffle` mutates that object in round 1, and the rebinding
`ideas = winners` makes every later round shuffle a fresh list, so the
caller's object holds the round-1 shuffle of the original list (or is
untouched when the loop never runs). -/
structure RankResult where
  ranking : List (String × Nat)
  scoresTable : List (String × Nat)
  finalActive : List String
  roundsRun : Nat
  calls : Nat
  keyErrors : Nat
  callerList : List String
deriving Repr, DecidableEq

/-- Embeds `IdeaPicker.rank`. -/
def rank (oracle : Nat → List String → List Char)
    (shuffle : Nat → List String → List String)
    (ideas : List String) (gsize : Nat) : RankResult :=
  let final := rankLoop oracle shuffle gsize ideas.length
    (RankState.mk ideas (initScores ideas) 1 0 0)
  RankResult.mk (pySorted final.scores) final.scores final.active
    (final.roundNumber - 1) final.calls final.keyErrors
    (if 1 < ideas.length then shuffle 1 ideas else ideas)

/-! ### Score-table lemmas -/

theorem incScore_keys (s : String) : ∀ (l : List (String × Nat)),
    (incScore s l).map Prod.fst = l.map Prod.fst
  | [] => rfl
  | p :: rest => by
    by_cases h : p.1 = s
    · simp [incScore, h]
    · simp [incScore, h, incScore_keys s rest]

theorem hasKey_iff (l : List (String × Nat)) (s : String) :
    hasKey l s = true ↔ s ∈ l.map Prod.fst := by
  simp only [hasKey, List.any_eq_true, beq_iff_eq, List.mem_map]

theorem hasKey_eq_of_keys_eq {l₁ l₂ : List (String × Nat)}
    (h : l₁.map Prod.fst = l₂.map Prod.fst) (s : String) :
    hasKey l₁ s = hasKey l₂ s := by
  rw [Bool.eq_iff_iff, hasKey_iff, hasKey_iff, h]

theorem hasKey_incScore (s t : String) (l : List (String × Nat)) :
    hasKey (incScore s l) t = hasKey l t :=
  hasKey_eq_of_keys_eq (incScore_keys s l) t

theorem hasKey_cons (p : String × Nat) (rest : List (String × Nat)) (s : String) :
    hasKey (p :: rest) s = ((p.1 == s) || hasKey rest s) := by
  simp [hasKey]

theorem incScore_cons_hit (s : String) (p : String × Nat) (rest : List (String × Nat))
    (hp : p.1 = s) : incScore s (p :: rest) = (p.1, p.2 + 1) :: rest := by
  simp [incScore, hp]

theorem incScore_cons_miss (s : String) (p : String × Nat) (rest : List (String × Nat))
    (hp : ¬ p.1 = s) : incScore s (p :: rest) = p :: incScore s rest := by
  simp [incScore, hp]

theorem scoreSum_incScore (s : String) : ∀ (l : List (String × Nat)),
    hasKey l s = true → scoreSum (incScore s l) = scoreSum l + 1
  | [], h => by simp [hasKey] at h
  | p :: rest, h => by
    by_cases hp : p.1 = s
    · rw [incScore_cons_hit s p rest hp]
      simp [scoreSum]
      omega
    · have hr : hasKey rest s = true := by
        rw [hasKey_cons] at h
        simpa [hp] using h
      rw [incScore_cons_miss s p rest hp]
      have ih := scoreSum_incScore s rest hr
      simp only [scoreSum, List.map_cons, List.sum_cons] at ih ⊢
      omega

theorem getScore_incScore_self (s : String) : ∀ (l : List (String × Nat)),
    hasKey l s = true → getScore (incScore s l) s = getScore l s + 1
  | [], h => by simp [hasKey] at h
  | p :: rest, h => by
    by_cases hp : p.1 = s
    · have hps : (p.1 == s) = true := by simp [hp]
      rw [incScore_cons_hit s p rest hp]
      simp [getScore, List.find?_cons, hps]
    · have hps : (p.1 == s) = false := by simp [hp]
      have hr : hasKey rest s = true := by
        rw [hasKey_cons] at h
        simpa [hp] using h
      rw [incScore_cons_miss s p rest hp]
      simp only [getScore, List.find?_cons, hps]
      exact getScore_incScore_self s rest hr

theorem getScore_incScore_ne (s t : String) (hne : s ≠ t) : ∀ (l : List (String × Nat)),
    getScore (incScore s l) t = getScore l t
  | [] => rfl
  | p :: rest => by
    by_cases hp : p.1 = s
    · have hpt : (p.1 == t) = false := by
        rw [hp]
        exact beq_eq_false_iff_ne.mpr hne
      rw [incScore_cons_hit s p rest hp]
      simp [getScore, List.find?_cons, hpt]
    · rw [incScore_cons_miss s p rest hp]
      by_cases hpt : p.1 = t
      · have h1 : (p.1 == t) = true := by simp [hpt]
        simp [getScore, List.find?_cons, h1]
      · have h1 : (p.1 == t) = false := by simp [hpt]
        simp only [getScore, List.find?_cons, h1]
        exact getScore_incScore_ne s t hne rest

/-! ### First-occurrence deduplication lemmas -/

theorem mem_firstDedup (y : String) : ∀ (l : List String), y ∈ firstDedup l ↔ y ∈ l
  | [] => Iff.rfl
  | x :: xs => by
    simp only [firstDedup, List.mem_cons, List.mem_filter, decide_eq_true_eq]
    by_cases h : y = x
    · simp [h]
    · simp [h, mem_firstDedup y xs]

theorem firstDedup_nodup : ∀ (l : List String), (firstDedup l).Nodup
  | [] => List.nodup_nil
  | x :: xs => by
    simp only [firstDedup, List.nodup_cons]
    constructor
    · intro hmem
      rcases List.mem_filter.mp hmem with ⟨-, hne⟩
      simp at hne
    · exact List.Nodup.filter _ (firstDedup_nodup xs)

theorem initScores_keys (ideas : List String) :
    (initScores ideas).map Prod.fst = firstDedup ideas := by
  unfold initScores
  rw [List.map_map]
  exact List.map_id (firstDedup ideas)

/-! ### Stable descending sort lemmas -/

theorem insertDesc_cons_stop (p q : String × Nat) (rest : List (String × Nat))
    (h : q.2 ≤ p.2) : insertDesc p (q :: rest) = p :: q :: rest := by
  simp [insertDesc, h]

theorem insertDesc_cons_skip (p q : String × Nat) (rest : List (String × Nat))
    (h : ¬ q.2 ≤ p.2) : insertDesc p (q :: rest) = q :: insertDesc p rest := by
  simp [insertDesc, h]

theorem insertDesc_perm (p : String × Nat) : ∀ (l : List (String × Nat)),
    (insertDesc p l).Perm (p :: l)
  | [] => List.Perm.refl _
  | q :: rest => by
    by_cases h : q.2 ≤ p.2
    · rw [insertDesc_cons_stop p q rest h]
    · rw [insertDesc_cons_skip p q rest h]
      exact ((insertDesc_perm p rest).cons q).trans (List.Perm.swap p q rest)

theorem pySorted_perm : ∀ (l : List (String × Nat)), (pySorted l).Perm l
  | [] => List.Perm.refl _
  | p :: rest => by
    have h1 : pySorted (p :: rest) = insertDesc p (pySorted rest) := rfl
    rw [h1]
    exact (insertDesc_perm p (pySorted rest)).trans ((pySorted_perm rest).cons p)

theorem sorted_insertDesc (p : String × Nat) : ∀ (l : List (String × Nat)),
    List.Sorted (fun a b : String × Nat => b.2 ≤ a.2) l →
    List.Sorted (fun a b : String × Nat => b.2 ≤ a.2) (insertDesc p l)
  | [], _ => by simp [insertDesc]
  | q :: rest, hs => by
    rcases List.sorted_cons.mp hs with ⟨hq, hrest⟩
    by_cases h : q.2 ≤ p.2
    · rw [insertDesc_cons_stop p q rest h]
      refine List.sorted_cons.mpr ⟨?_, hs⟩
      intro b hb
      rcases List.mem_cons.mp hb with hb | hb
      · exact hb ▸ h
      · exact le_trans (hq b hb) h
    · rw [insertDesc_cons_skip p q rest h]
      refine List.sorted_cons.mpr ⟨?_, sorted_insertDesc p rest hrest⟩
      intro b hb
      have hb2 : b ∈ p :: rest := (insertDesc_perm p rest).mem_iff.mp hb
      rcases List.mem_cons.mp hb2 with hb3 | hb3
      · subst hb3
        omega
      · exact hq b hb3

theorem pySorted_sorted : ∀ (l : List (String × Nat)),
    List.Sorted (fun a b : String × Nat => b.2 ≤ a.2) (pySorted l)
  | [] => List.sorted_nil
  | p :: rest => sorted_insertDesc p (pySorted rest) (pySorted_sorted rest)

theorem filter_insertDesc (n : Nat) (p : String × Nat) : ∀ (l : List (String × Nat)),
    (insertDesc p l).filter (fun q => q.2 == n) =
      if p.2 = n then p :: l.filter (fun q => q.2 == n)
      else l.filter (fun q => q.2 == n)
  | [] => by
    by_cases h : p.2 = n <;> simp [insertDesc, h]
  | q :: rest => by
    by_cases hq : q.2 ≤ p.2
    · rw [insertDesc_cons_stop p q rest hq]
      by_cases h : p.2 = n <;> simp [List.filter_cons, h]
    · rw [insertDesc_cons_skip p q rest hq]
      simp only [List.filter_cons]
      rw [filter_insertDesc n p rest]
      by_cases h : p.2 = n
      · have hqn : (q.2 == n) = false := by
          have h2 : ¬ q.2 = n := by omega
          simp [h2]
        simp [h, hqn]
      · simp [h]

theorem filter_pySorted (n : Nat) : ∀ (l : List (String × Nat)),
    (pySorted l).filter (fun q => q.2 == n) = l.filter (fun q => q.2 == n)
  | [] => rfl
  | p :: rest => by
    have h1 : pySorted (p :: rest) = insertDesc p (pySorted rest) := rfl
    rw [h1, filter_insertDesc]
    by_cases h : p.2 = n <;> simp [List.filter_cons, h, filter_pySorted n rest]

/-! ### Grouping lemmas -/

theorem groupsOf_nil {α : Type} (n : Nat) : groupsOf n ([] : List α) = [] := by
  unfold groupsOf
  split
  · rfl
  · rfl

theorem groupsOf_zero {α : Type} (l : List α) : groupsOf 0 l = [] := by
  unfold groupsOf
  simp

theorem groupsOfAux_fuel_eq {α : Type} (n : Nat) (hn : 1 ≤ n) :
    ∀ (fuel₁ fuel₂ : Nat) (l : List α), l.length ≤ fuel₁ → l.length ≤ fuel₂ →
      groupsOfAux n fuel₁ l = groupsOfAux n fuel₂ l := by
  intro fuel₁
  induction fuel₁ with
  | zero =>
    intro fuel₂ l h1 h2
    have hnil : l = [] := by
      cases l with
      | nil => rfl
      | cons x xs => simp at h1
    subst hnil
    cases fuel₂ <;> rfl
  | succ f ih =>
    intro fuel₂ l h1 h2
    cases l with
    | nil => cases fuel₂ <;> rfl
    | cons x xs =>
      cases fuel₂ with
      | zero => simp at h2
      | succ f₂ =>
        simp only [groupsOfAux]
        congr 1
        apply ih
        · simp only [List.length_drop, List.length_cons] at *
          omega
        · simp only [List.length_drop, List.length_cons] at *
          omega

theorem groupsOf_eq_cons {α : Type} (n : Nat) (hn : 1 ≤ n) (l : List α) (hl : l ≠ []) :
    groupsOf n l = l.take n :: groupsOf n (l.drop n) := by
  cases l with
  | nil => exact absurd rfl hl
  | cons x xs =>
    have hn0 : ¬ n = 0 := by omega
    unfold groupsOf
    simp only [hn0, if_false]
    have h1 : (x :: xs).length = xs.length + 1 := rfl
    rw [h1]
    simp only [groupsOfAux]
    congr 1
    apply groupsOfAux_fuel_eq n hn
    · simp only [List.length_drop, List.length_cons]
      omega
    · exact le_rfl

theorem groupsOf_eq_single {α : Type} (n : Nat) (hn : 1 ≤ n) (l : List α)
    (hl : l ≠ []) (hlen : l.length ≤ n) : groupsOf n l = [l] := by
  rw [groupsOf_eq_cons n hn l hl, List.take_of_length_le hlen,
    List.drop_eq_nil_of_le hlen, groupsOf_nil]

theorem groupsOf_flatten_aux {α : Type} (n : Nat) (hn : 1 ≤ n) :
    ∀ (fuel : Nat) (l : List α), l.length ≤ fuel → (groupsOf n l).flatten = l := by
  intro fuel
  induction fuel with
  | zero =>
    intro l h
    have hnil : l = [] := by
      cases l with
      | nil => rfl
      | cons x xs => simp at h
    subst hnil
    simp [groupsOf_nil]
  | succ f ih =>
    intro l h
    cases l with
    | nil => simp [groupsOf_nil]
    | cons x xs =>
      rw [groupsOf_eq_cons n hn _ (by simp), List.flatten_cons]
      rw [ih ((x :: xs).drop n)
        (by simp only [List.length_drop, List.length_cons] at *; omega)]
      exact List.take_append_drop n (x :: xs)

theorem groupsOf_flatten {α : Type} (n : Nat) (hn : 1 ≤ n) (l : List α) :
    (groupsOf n l).flatten = l :=
  groupsOf_flatten_aux n hn l.length l le_rfl

theorem mem_of_mem_groupsOf {α : Type} {n : Nat} {l g : List α}
    (hg : g ∈ groupsOf n l) {s : α} (hs : s ∈ g) : s ∈ l := by
  by_cases hn : n = 0
  · subst hn
    rw [groupsOf_zero] at hg
    simp at hg
  · have h1 : s ∈ (groupsOf n l).flatten := List.mem_flatten.mpr ⟨g, hg, hs⟩
    rw [groupsOf_flatten n (by omega) l] at h1
    exact h1

theorem groupsOf_sizes_aux {α : Type} (n : Nat) (hn : 1 ≤ n) :
    ∀ (fuel : Nat) (l : List α), l.length ≤ fuel → l ≠ [] →
      (∀ g ∈ (groupsOf n l).dropLast, g.length = n) ∧
      (∀ g, (groupsOf n l).getLast? = some g → 1 ≤ g.length ∧ g.length ≤ n) := by
  intro fuel
  induction fuel with
  | zero =>
    intro l h hne
    cases l with
    | nil => exact absurd rfl hne
    | cons x xs => simp at h
  | succ f ih =>
    intro l h hne
    by_cases hlen : l.length ≤ n
    · rw [groupsOf_eq_single n hn l hne hlen]
      constructor
      · intro g hg
        simp at hg
      · intro g hg
        simp at hg
        subst hg
        refine ⟨?_, hlen⟩
        cases l with
        | nil => exact absurd rfl hne
        | cons x xs => simp
    · push_neg at hlen
      rw [groupsOf_eq_cons n hn l hne]
      have hdne : l.drop n ≠ [] := by
        intro hc
        have hc2 := congrArg List.length hc
        simp only [List.length_drop, List.length_nil] at hc2
        omega
      have hrec := ih (l.drop n)
        (by simp only [List.length_drop] at *; omega) hdne
      obtain ⟨g0, gs, hrw⟩ : ∃ g0 gs, groupsOf n (l.drop n) = g0 :: gs := by
        cases hx : groupsOf n (l.drop n) with
        | nil =>
          rw [groupsOf_eq_cons n hn _ hdne] at hx
          simp at hx
        | cons a b => exact ⟨a, b, rfl⟩
      rw [hrw]
      rw [hrw] at hrec
      constructor
      · intro g hg
        rw [List.dropLast_cons₂] at hg
        rcases List.mem_cons.mp hg with hg | hg
        · subst hg
          rw [List.length_take]
          exact Nat.min_eq_left (le_of_lt hlen)
        · exact hrec.1 g hg
      · intro g hg
        rw [List.getLast?_cons_cons] at hg
        exact hrec.2 g hg

theorem groupsOf_length_lt_aux {α : Type} (n : Nat) (hn : 2 ≤ n) :
    ∀ (fuel : Nat) (l : List α), l.length ≤ fuel → 2 ≤ l.length →
      (groupsOf n l).length < l.length := by
  intro fuel
  induction fuel with
  | zero =>
    intro l h h2
    omega
  | succ f ih =>
    intro l h h2
    have hne : l ≠ [] := by
      intro hc
      subst hc
      simp at h2
    by_cases hlen : l.length ≤ n
    · rw [groupsOf_eq_single n (by omega) l hne hlen]
      simp only [List.length_cons, List.length_nil]
      omega
    · push_neg at hlen
      rw [groupsOf_eq_cons n (by omega) l hne]
      have hd : (l.drop n).length = l.length - n := List.length_drop n l
      by_cases h2d : 2 ≤ (l.drop n).length
      · have hlt := ih (l.drop n) (by omega) h2d
        simp only [List.length_cons]
        omega
      · have h1d : (l.drop n).length = 1 := by omega
        have hdne : l.drop n ≠ [] := by
          intro hc
          rw [hc] at h1d
          simp at h1d
        rw [groupsOf_eq_single n (by omega) (l.drop n) hdne (by omega)]
        simp only [List.length_cons, List.length_nil]
        omega

theorem groupsOf_length_lt {α : Type} {n : Nat} (hn : 2 ≤ n) (l : List α)
    (h2 : 2 ≤ l.length) : (groupsOf n l).length < l.length :=
  groupsOf_length_lt_aux n hn l.length l le_rfl h2

/-! ### Retry and membership lemmas -/

theorem pick_one_mem {ideas : List String} {txt : List Char} {c : String}
    (h : pick_one ideas txt = some c) : c ∈ ideas := by
  unfold pick_one at h
  cases hf : findChoice txt with
  | none => rw [hf] at h; exact absurd h (by simp)
  | some n =>
    rw [hf] at h
    simp only at h
    split at h
    · exact absurd h (by simp)
    · exact List.getElem?_mem h

theorem pick_one_none_of_findChoice_none {ideas : List String} {txt : List Char}
    (h : findChoice txt = none) : pick_one ideas txt = none := by
  unfold pick_one
  rw [h]

theorem pick_one_nil (txt : List Char) : pick_one ([] : List String) txt = none := by
  unfold pick_one
  cases findChoice txt with
  | none => rfl
  | some n =>
    simp only [List.length_nil, Nat.cast_zero]
    split
    · rfl
    · rename_i hcond
      exfalso
      push_neg at hcond
      omega

theorem pick_one_with_retry_calls_bound (oracle : Nat → List String → List Char)
    (g : List String) : ∀ (r k : Nat),
    k ≤ (pick_one_with_retry oracle g r k).2 ∧
    (pick_one_with_retry oracle g r k).2 ≤ k + r
  | 0, k => by simp [pick_one_with_retry]
  | r + 1, k => by
    unfold pick_one_with_retry
    cases hp : pick_one g (oracle k g) with
    | some c => simp
    | none =>
      have := pick_one_with_retry_calls_bound oracle g r (k + 1)
      simp only
      omega

theorem pick_one_with_retry_mem (oracle : Nat → List String → List Char)
    (g : List String) : ∀ (r k : Nat) (c : String),
    (pick_one_with_retry oracle g r k).1 = some c → c ∈ g
  | 0, k, c, h => by simp [pick_one_with_retry] at h
  | r + 1, k, c, h => by
    unfold pick_one_with_retry at h
    cases hp : pick_one g (oracle k g) with
    | some c0 =>
      rw [hp] at h
      simp at h
      subst h
      exact pick_one_mem hp
    | none =>
      rw [hp] at h
      exact pick_one_with_retry_mem oracle g r (k + 1) c h

theorem pick_one_with_retry_all_fail (oracle : Nat → List String → List Char)
    (g : List String) : ∀ (r k : Nat),
    (∀ j, j < r → pick_one g (oracle (k + j) g) = none) →
    pick_one_with_retry oracle g r k = (none, k + r)
  | 0, k, _ => rfl
  | r + 1, k, h => by
    unfold pick_one_with_retry
    have h0 : pick_one g (oracle k g) = none := by
      have := h 0 (by omega)
      simpa using this
    rw [h0]
    have hrest : ∀ j, j < r → pick_one g (oracle (k + 1 + j) g) = none := by
      intro j hj
      have := h (j + 1) (by omega)
      have harith : k + (j + 1) = k + 1 + j := by omega
      rwa [harith] at this
    rw [pick_one_with_retry_all_fail oracle g r (k + 1) hrest]
    have : k + 1 + r = k + (r + 1) := by omega
    rw [this]

theorem pick_one_with_retry_first_success (oracle : Nat → List String → List Char)
    (g : List String) : ∀ (r k j : Nat) (c : String), j < r →
    pick_one g (oracle (k + j) g) = some c →
    (∀ i, i < j → pick_one g (oracle (k + i) g) = none) →
    pick_one_with_retry oracle g r k = (some c, k + j + 1)
  | 0, k, j, c, hj, _, _ => by omega
  | r + 1, k, j, c, hj, hc, hfail => by
    unfold pick_one_with_retry
    cases j with
    | zero =>
      have h0 : pick_one g (oracle k g) = some c := by simpa using hc
      rw [h0]
    | succ j' =>
      have h0 : pick_one g (oracle k g) = none := by
        have := hfail 0 (by omega)
        simpa using this
      rw [h0]
      have hc' : pick_one g (oracle (k + 1 + j') g) = some c := by
        have harith : k + (j' + 1) = k + 1 + j' := by omega
        rwa [harith] at hc
      have hfail' : ∀ i, i < j' → pick_one g (oracle (k + 1 + i) g) = none := by
        intro i hi
        have := hfail (i + 1) (by omega)
        have harith : k + (i + 1) = k + 1 + i := by omega
        rwa [harith] at this
      rw [pick_one_with_retry_first_success oracle g r (k + 1) j' c (by omega) hc' hfail']
      have : k + 1 + j' + 1 = k + (j' + 1) + 1 := by omega
      rw [this]

theorem groupDecision_two (oracle : Nat → List String → List Char)
    (g : List String) (k : Nat) (hg : 2 ≤ g.length) :
    groupDecision oracle g k = pick_one_with_retry oracle g 5 k := by
  cases g with
  | nil => simp at hg
  | cons a rest =>
    cases rest with
    | nil => simp at hg
    | cons b rest2 => rfl

theorem groupDecision_mem (oracle : Nat → List String → List Char)
    (g : List String) (k : Nat) (b : String)
    (h : (groupDecision oracle g k).1 = some b) : b ∈ g := by
  cases g with
  | nil =>
    have hall : pick_one_with_retry oracle [] 5 k = (none, k + 5) :=
      pick_one_with_retry_all_fail oracle [] 5 k (fun j _ => pick_one_nil _)
    have hd : groupDecision oracle [] k = pick_one_with_retry oracle [] 5 k := rfl
    rw [hd, hall] at h
    simp at h
  | cons a rest =>
    cases rest with
    | nil =>
      simp [groupDecision] at h
      simp [h]
    | cons c rest2 =>
      have h2 : (pick_one_with_retry oracle (a :: c :: rest2) 5 k).1 = some b := h
      exact pick_one_with_retry_mem oracle _ 5 k b h2

/-! ### Round-processing lemmas -/

theorem groupDecisions_cons (oracle : Nat → List String → List Char) (k : Nat)
    (g : List String) (gs : List (List String)) :
    groupDecisions oracle k (g :: gs)
      = (groupDecision oracle g k).1 :: groupDecisions oracle (groupDecision oracle g k).2 gs := rfl

theorem processGroups_cons (oracle : Nat → List String → List Char)
    (g : List String) (gs : List (List String)) (st : RoundState) :
    processGroups oracle (g :: gs) st = processGroups oracle gs (processGroup oracle st g) := rfl

theorem processGroup_none (oracle : Nat → List String → List Char)
    (w : List String) (sc : List (String × Nat)) (k ke : Nat) (g : List String) (kk : Nat)
    (hd : groupDecision oracle g k = (none, kk)) :
    processGroup oracle (RoundState.mk w sc k ke) g = RoundState.mk w sc kk ke := by
  unfold processGroup
  dsimp only
  rw [hd]

theorem processGroup_some_hit (oracle : Nat → List String → List Char)
    (w : List String) (sc : List (String × Nat)) (k ke : Nat) (g : List String)
    (b : String) (kk : Nat)
    (hd : groupDecision oracle g k = (some b, kk)) (hk : hasKey sc b = true) :
    processGroup oracle (RoundState.mk w sc k ke) g
      = RoundState.mk (w ++ [b]) (incScore b sc) kk ke := by
  unfold processGroup
  dsimp only
  rw [hd]
  simp [hk]

theorem processGroup_some_miss (oracle : Nat → List String → List Char)
    (w : List String) (sc : List (String × Nat)) (k ke : Nat) (g : List String)
    (b : String) (kk : Nat)
    (hd : groupDecision oracle g k = (some b, kk)) (hk : hasKey sc b = false) :
    processGroup oracle (RoundState.mk w sc k ke) g = RoundState.mk w sc kk (ke + 1) := by
  unfold processGroup
  dsimp only
  rw [hd]
  simp [hk]

theorem processGroups_keys (oracle : Nat → List String → List Char) :
    ∀ (gs : List (List String)) (w : List String) (sc : List (String × Nat)) (k ke : Nat),
    (processGroups oracle gs (RoundState.mk w sc k ke)).scores.map Prod.fst = sc.map Prod.fst
  | [], w, sc, k, ke => rfl
  | g :: gs, w, sc, k, ke => by
    rw [processGroups_cons]
    rcases hd : groupDecision oracle g k with ⟨b, kk⟩
    cases b with
    | none =>
      rw [processGroup_none oracle w sc k ke g kk hd]
      exact processGroups_keys oracle gs w sc kk ke
    | some b0 =>
      cases hk : hasKey sc b0 with
      | true =>
        rw [processGroup_some_hit oracle w sc k ke g b0 kk hd hk]
        rw [processGroups_keys oracle gs (w ++ [b0]) (incScore b0 sc) kk ke]
        exact incScore_keys b0 sc
      | false =>
        rw [processGroup_some_miss oracle w sc k ke g b0 kk hd hk]
        exact processGroups_keys oracle gs w sc kk (ke + 1)

theorem processGroups_winners_le (oracle : Nat → List String → List Char) :
    ∀ (gs : List (List String)) (w : List String) (sc : List (String × Nat)) (k ke : Nat),
    (processGroups oracle gs (RoundState.mk w sc k ke)).winners.length ≤ w.length + gs.length
  | [], w, sc, k, ke => by simp [processGroups]
  | g :: gs, w, sc, k, ke => by
    rw [processGroups_cons]
    rcases hd : groupDecision oracle g k with ⟨b, kk⟩
    cases b with
    | none =>
      rw [processGroup_none oracle w sc k ke g kk hd]
      have ih := processGroups_winners_le oracle gs w sc kk ke
      simp only [List.length_cons]
      omega
    | some b0 =>
      cases hk : hasKey sc b0 with
      | true =>
        rw [processGroup_some_hit oracle w sc k ke g b0 kk hd hk]
        have ih := processGroups_winners_le oracle gs (w ++ [b0]) (incScore b0 sc) kk ke
        simp only [List.length_cons, List.length_append, List.length_cons,
          List.length_nil] at *
        omega
      | false =>
        rw [processGroup_some_miss oracle w sc k ke g b0 kk hd hk]
        have ih := processGroups_winners_le oracle gs w sc kk (ke + 1)
        simp only [List.length_cons]
        omega

theorem processGroups_spec (oracle : Nat → List String → List Char) :
    ∀ (gs : List (List String)) (w : List String) (sc : List (String × Nat)) (k ke : Nat),
    (∀ g, g ∈ gs → ∀ s, s ∈ g → hasKey sc s = true) →
    (processGroups oracle gs (RoundState.mk w sc k ke)).winners
        = w ++ (groupDecisions oracle k gs).filterMap id
    ∧ scoreSum (processGroups oracle gs (RoundState.mk w sc k ke)).scores
        = scoreSum sc + ((groupDecisions oracle k gs).filter Option.isSome).length
    ∧ (∀ s, getScore (processGroups oracle gs (RoundState.mk w sc k ke)).scores s
        = getScore sc s + ((groupDecisions oracle k gs).filterMap id).count s)
    ∧ (processGroups oracle gs (RoundState.mk w sc k ke)).keyErrors = ke
  | [], w, sc, k, ke, _ => by
    simp [processGroups, groupDecisions]
  | g :: gs, w, sc, k, ke, hmem => by
    rw [processGroups_cons]
    rcases hd : groupDecision oracle g k with ⟨b, kk⟩
    have hgd : groupDecisions oracle k (g :: gs) = b :: groupDecisions oracle kk gs := by
      rw [groupDecisions_cons, hd]
    cases b with
    | none =>
      rw [processGroup_none oracle w sc k ke g kk hd]
      have hmem' : ∀ g2, g2 ∈ gs → ∀ s, s ∈ g2 → hasKey sc s = true :=
        fun g2 hg2 s hs => hmem g2 (List.mem_cons_of_mem _ hg2) s hs
      have ih := processGroups_spec oracle gs w sc kk ke hmem'
      rw [hgd]
      simp only [List.filterMap_cons, List.filter_cons, Option.isSome_none,
        Bool.false_eq_true, if_false]
      exact ih
    | some b0 =>
      have hb0 : b0 ∈ g := groupDecision_mem oracle g k b0 (by rw [hd])
      have hk : hasKey sc b0 = true := hmem g (List.mem_cons_self g gs) b0 hb0
      rw [processGroup_some_hit oracle w sc k ke g b0 kk hd hk]
      have hmem' : ∀ g2, g2 ∈ gs → ∀ s, s ∈ g2 → hasKey (incScore b0 sc) s = true := by
        intro g2 hg2 s hs
        rw [hasKey_incScore]
        exact hmem g2 (List.mem_cons_of_mem _ hg2) s hs
      have ih := processGroups_spec oracle gs (w ++ [b0]) (incScore b0 sc) kk ke hmem'
      rw [hgd]
      obtain ⟨ihw, ihsum, ihget, ihke⟩ := ih
      refine ⟨?_, ?_, ?_, ihke⟩
      · rw [ihw]
        simp [List.filterMap_cons]
      · rw [ihsum, scoreSum_incScore b0 sc hk]
        simp only [List.filter_cons, Option.isSome_some, if_true]
        simp only [List.length_cons]
        omega
      · intro s
        rw [ihget s]
        simp only [List.filterMap_cons, Option.some.injEq, id]
        by_cases hsb : b0 = s
        · subst hsb
          rw [getScore_incScore_self b0 sc hk]
          rw [List.count_cons]
          simp
          omega
        · rw [getScore_incScore_ne b0 s hsb sc]
          rw [List.count_cons]
          simp [hsb]

/-! ### Loop lemmas -/

theorem rankLoop_zero (oracle : Nat → List String → List Char)
    (shuffle : Nat → List String → List String) (gsize : Nat) (st : RankState) :
    rankLoop oracle shuffle gsize 0 st = st := rfl

theorem rankLoop_succ (oracle : Nat → List String → List Char)
    (shuffle : Nat → List String → List String) (gsize : Nat) (fuel : Nat) (st : RankState) :
    rankLoop oracle shuffle gsize (fuel + 1) st =
      if st.active.length ≤ 1 then st
      else
        rankLoop oracle shuffle gsize fuel
          (RankState.mk
            (processRound oracle gsize (shuffle st.roundNumber st.active)
              st.scores st.calls st.keyErrors).winners
            (processRound oracle gsize (shuffle st.roundNumber st.active)
              st.scores st.calls st.keyErrors).scores
            (st.roundNumber + 1)
            (processRound oracle gsize (shuffle st.roundNumber st.active)
              st.scores st.calls st.keyErrors).calls
            (processRound oracle gsize (shuffle st.roundNumber st.active)
              st.scores st.calls st.keyErrors).keyErrors) := rfl

theorem rankLoop_stop (oracle : Nat → List String → List Char)
    (shuffle : Nat → List String → List String) (gsize : Nat) (fuel : Nat) (st : RankState)
    (h : st.active.length ≤ 1) : rankLoop oracle shuffle gsize fuel st = st := by
  cases fuel with
  | zero => rfl
  | succ f =>
    rw [rankLoop_succ]
    simp [h]

theorem rankLoop_step (oracle : Nat → List String → List Char)
    (shuffle : Nat → List String → List String) (gsize : Nat) (fuel : Nat) (st : RankState)
    (h : ¬ st.active.length ≤ 1) :
    rankLoop oracle shuffle gsize (fuel + 1) st =
      rankLoop oracle shuffle gsize fuel
        (RankState.mk
          (processRound oracle gsize (shuffle st.roundNumber st.active)
            st.scores st.calls st.keyErrors).winners
          (processRound oracle gsize (shuffle st.roundNumber st.active)
            st.scores st.calls st.keyErrors).scores
          (st.roundNumber + 1)
          (processRound oracle gsize (shuffle st.roundNumber st.active)
            st.scores st.calls st.keyErrors).calls
          (processRound oracle gsize (shuffle st.roundNumber st.active)
            st.scores st.calls st.keyErrors).keyErrors) := by
  rw [rankLoop_succ]
  simp [h]

theorem mem_filterMap_groupDecisions (oracle : Nat → List String → List Char) :
    ∀ (gs : List (List String)) (k : Nat) (b : String),
    b ∈ (groupDecisions oracle k gs).filterMap id → ∃ g, g ∈ gs ∧ b ∈ g
  | [], k, b, h => by simp [groupDecisions] at h
  | g :: gs, k, b, h => by
    rw [groupDecisions_cons] at h
    rcases hd : groupDecision oracle g k with ⟨b0, kk⟩
    rw [hd] at h
    simp only [List.filterMap_cons] at h
    cases b0 with
    | none =>
      rcases mem_filterMap_groupDecisions oracle gs kk b h with ⟨g2, hg2, hb⟩
      exact ⟨g2, List.mem_cons_of_mem _ hg2, hb⟩
    | some c =>
      simp only [id] at h
      rcases List.mem_cons.mp h with h | h
      · subst h
        exact ⟨g, List.mem_cons_self g gs, groupDecision_mem oracle g k b (by rw [hd])⟩
      · rcases mem_filterMap_groupDecisions oracle gs kk b h with ⟨g2, hg2, hb⟩
        exact ⟨g2, List.mem_cons_of_mem _ hg2, hb⟩

theorem rankLoop_keys (oracle : Nat → List String → List Char)
    (shuffle : Nat → List String → List String) (gsize : Nat) :
    ∀ (fuel : Nat) (st : RankState),
    (rankLoop oracle shuffle gsize fuel st).scores.map Prod.fst = st.scores.map Prod.fst := by
  intro fuel
  induction fuel with
  | zero =>
    intro st
    rfl
  | succ f ih =>
    intro st
    by_cases h : st.active.length ≤ 1
    · rw [rankLoop_stop oracle shuffle gsize (f + 1) st h]
    · rw [rankLoop_step oracle shuffle gsize f st h, ih]
      dsimp only
      unfold processRound
      exact processGroups_keys oracle _ [] st.scores st.calls st.keyErrors

theorem rankLoop_term (oracle : Nat → List String → List Char)
    (shuffle : Nat → List String → List String) (gsize : Nat) (hg : 2 ≤ gsize)
    (hsh : ∀ r l, (shuffle r l).Perm l) : ∀ (fuel : Nat) (st : RankState),
    st.active.length ≤ fuel → (rankLoop oracle shuffle gsize fuel st).active.length ≤ 1 := by
  intro fuel
  induction fuel with
  | zero =>
    intro st h
    rw [rankLoop_zero]
    omega
  | succ f ih =>
    intro st h
    by_cases hstop : st.active.length ≤ 1
    · rw [rankLoop_stop oracle shuffle gsize (f + 1) st hstop]
      exact hstop
    · rw [rankLoop_step oracle shuffle gsize f st hstop]
      apply ih
      dsimp only
      push_neg at hstop
      have hshuf : (shuffle st.roundNumber st.active).length = st.active.length :=
        (hsh st.roundNumber st.active).length_eq
      have hwin : (processRound oracle gsize (shuffle st.roundNumber st.active)
          st.scores st.calls st.keyErrors).winners.length
          ≤ (groupsOf gsize (shuffle st.roundNumber st.active)).length := by
        unfold processRound
        have hb := processGroups_winners_le oracle
          (groupsOf gsize (shuffle st.roundNumber st.active)) [] st.scores st.calls st.keyErrors
        simpa using hb
      have hgl : (groupsOf gsize (shuffle st.roundNumber st.active)).length
          < st.active.length := by
        rw [← hshuf]
        exact groupsOf_length_lt hg _ (by rw [hshuf]; omega)
      omega

theorem rankLoop_keyErrors (oracle : Nat → List String → List Char)
    (shuffle : Nat → List String → List String) (gsize : Nat)
    (hsh : ∀ r l, (shuffle r l).Perm l) : ∀ (fuel : Nat) (st : RankState),
    (∀ s, s ∈ st.active → hasKey st.scores s = true) →
    (rankLoop oracle shuffle gsize fuel st).keyErrors = st.keyErrors := by
  intro fuel
  induction fuel with
  | zero =>
    intro st _
    rfl
  | succ f ih =>
    intro st hinv
    by_cases hstop : st.active.length ≤ 1
    · rw [rankLoop_stop oracle shuffle gsize (f + 1) st hstop]
    · have hmem : ∀ g, g ∈ groupsOf gsize (shuffle st.roundNumber st.active) →
          ∀ s, s ∈ g → hasKey st.scores s = true := by
        intro g hg s hs
        have h1 : s ∈ shuffle st.roundNumber st.active := mem_of_mem_groupsOf hg hs
        exact hinv s ((hsh st.roundNumber st.active).mem_iff.mp h1)
      have hspec := processGroups_spec oracle
        (groupsOf gsize (shuffle st.roundNumber st.active)) [] st.scores st.calls st.keyErrors hmem
      obtain ⟨hw, -, -, hke⟩ := hspec
      rw [rankLoop_step oracle shuffle gsize f st hstop]
      rw [ih]
      · dsimp only
        unfold processRound
        exact hke
      · dsimp only
        intro s hsw
        unfold processRound at hsw
        rw [hw] at hsw
        simp only [List.nil_append] at hsw
        rcases mem_filterMap_groupDecisions oracle _ _ s hsw with ⟨g, hg, hsg⟩
        have h1 : s ∈ shuffle st.roundNumber st.active := mem_of_mem_groupsOf hg hsg
        have h2 : hasKey st.scores s = true :=
          hinv s ((hsh st.roundNumber st.active).mem_iff.mp h1)
        have hkeys : (processRound oracle gsize (shuffle st.roundNumber st.active)
            st.scores st.calls st.keyErrors).scores.map Prod.fst = st.scores.map Prod.fst := by
          unfold processRound
          exact processGroups_keys oracle _ [] st.scores st.calls st.keyErrors
        rw [hasKey_eq_of_keys_eq hkeys s]
        exact h2

/-! ### Declarative characterization of the CHOICE marker search -/

/-- The pattern CHOICE(digits) matches at position `i` of `text` with
integer value `n`: from position `i` the text reads `CHOICE(`, then a
nonempty run of digits with value `n`, then `)`.  The digit run is
necessarily maximal because the next character is the non-digit `)`. -/
def ChoiceMarkerAt (text : List Char) (i : Nat) (n : Nat) : Prop :=
  ∃ ds post, ds ≠ [] ∧ (∀ c ∈ ds, isDigitChar c = true) ∧
    text.drop i = choiceLit ++ (ds ++ ')' :: post) ∧ digitsToNat ds = n

theorem isPrefixOf_iff_append : ∀ (p s : List Char),
    p.isPrefixOf s = true ↔ ∃ t, s = p ++ t
  | [], s => by simp [List.isPrefixOf]
  | a :: p, [] => by simp [List.isPrefixOf]
  | a :: p, b :: s => by
    simp only [List.isPrefixOf, Bool.and_eq_true, beq_iff_eq]
    rw [isPrefixOf_iff_append p s]
    constructor
    · rintro ⟨hab, t, ht⟩
      exact ⟨t, by rw [hab, ht]; rfl⟩
    · rintro ⟨t, ht⟩
      rw [List.cons_append] at ht
      injection ht with h1 h2
      exact ⟨h1.symm ▸ rfl, t, h2⟩

theorem mem_takeWhile (p : Char → Bool) : ∀ (l : List Char) (c : Char),
    c ∈ l.takeWhile p → p c = true
  | [], c, h => by simp [List.takeWhile] at h
  | a :: l, c, h => by
    by_cases ha : p a = true
    · rw [List.takeWhile_cons, if_pos ha] at h
      rcases List.mem_cons.mp h with h | h
      · rwa [h]
      · exact mem_takeWhile p l c h
    · rw [List.takeWhile_cons, if_neg ha] at h
      simp at h

theorem takeWhile_all_append (p : Char → Bool) : ∀ (ds : List Char) (x : Char) (r : List Char),
    (∀ c ∈ ds, p c = true) → p x = false →
    (ds ++ x :: r).takeWhile p = ds ∧ (ds ++ x :: r).dropWhile p = x :: r
  | [], x, r, _, hx => by
    have hx2 : ¬ p x = true := by simp [hx]
    constructor
    · rw [List.nil_append, List.takeWhile_cons, if_neg hx2]
    · rw [List.nil_append, List.dropWhile_cons, if_neg hx2]
  | d :: ds, x, r, hall, hx => by
    have hd : p d = true := hall d (List.mem_cons_self d ds)
    have hrec := takeWhile_all_append p ds x r
      (fun c hc => hall c (List.mem_cons_of_mem d hc)) hx
    constructor
    · rw [List.cons_append, List.takeWhile_cons, if_pos hd, hrec.1]
    · rw [List.cons_append, List.dropWhile_cons, if_pos hd, hrec.2]

theorem matchChoiceAt_eq (s : List Char) :
    matchChoiceAt s =
      if choiceLit.isPrefixOf s then
        if ((s.drop choiceLit.length).takeWhile isDigitChar).isEmpty then none
        else
          match (s.drop choiceLit.length).dropWhile isDigitChar with
          | ')' :: _ => some (digitsToNat ((s.drop choiceLit.length).takeWhile isDigitChar))
          | _ => none
      else none := rfl

theorem matchChoiceAt_iff (s : List Char) (n : Nat) :
    matchChoiceAt s = some n ↔ ChoiceMarkerAt s 0 n := by
  constructor
  · intro h
    rw [matchChoiceAt_eq] at h
    split at h
    case isTrue hpre =>
      obtain ⟨t, ht⟩ := (isPrefixOf_iff_append choiceLit s).mp hpre
      subst ht
      rw [List.drop_left] at h
      split at h
      case isTrue => exact absurd h (by simp)
      case isFalse hne =>
        cases hdw : t.dropWhile isDigitChar with
        | nil =>
          rw [hdw] at h
          exact absurd h (by simp)
        | cons c post =>
          rw [hdw] at h
          split at h
          · rename_i tail heq
            injection heq with hc hpost
            injection h with hval
            refine ⟨t.takeWhile isDigitChar, tail, ?_, ?_, ?_, hval⟩
            · intro hcon
              rw [hcon] at hne
              simp at hne
            · exact fun c2 hc2 => mem_takeWhile isDigitChar t c2 hc2
            · rw [List.drop_zero]
              congr 1
              rw [← hpost, ← hc, ← hdw]
              exact (List.takeWhile_append_dropWhile isDigitChar t).symm
          · exact absurd h (by simp)
    case isFalse => exact absurd h (by simp)
  · rintro ⟨ds, post, hne, hdig, heq, hval⟩
    rw [List.drop_zero] at heq
    subst heq
    rw [matchChoiceAt_eq]
    have hpre : choiceLit.isPrefixOf (choiceLit ++ (ds ++ ')' :: post)) = true :=
      (isPrefixOf_iff_append choiceLit _).mpr ⟨ds ++ ')' :: post, rfl⟩
    rw [if_pos hpre, List.drop_left]
    have hcp : isDigitChar ')' = false := by decide
    have htw := takeWhile_all_append isDigitChar ds ')' post hdig hcp
    rw [htw.1, htw.2]
    have hempty : ds.isEmpty = false := by
      cases ds with
      | nil => exact absurd rfl hne
      | cons a b => rfl
    rw [hempty]
    simp [hval]

theorem findChoice_cons (c : Char) (cs : List Char) :
    findChoice (c :: cs) = match matchChoiceAt (c :: cs) with
      | some n => some n
      | none => findChoice cs := rfl

theorem choiceMarkerAt_nil (i n : Nat) : ¬ ChoiceMarkerAt [] i n := by
  rintro ⟨ds, post, hne, hdig, heq, hval⟩
  rw [List.drop_nil] at heq
  exact absurd heq (by simp [choiceLit])

theorem choiceMarkerAt_cons_succ (c : Char) (cs : List Char) (j n : Nat) :
    ChoiceMarkerAt (c :: cs) (j + 1) n ↔ ChoiceMarkerAt cs j n := by
  unfold ChoiceMarkerAt
  rw [List.drop_succ_cons]

theorem findChoice_eq_none_iff : ∀ (text : List Char),
    findChoice text = none ↔ ∀ i m, ¬ ChoiceMarkerAt text i m
  | [] => by
    constructor
    · intro _ i m
      exact choiceMarkerAt_nil i m
    · intro _
      rfl
  | c :: cs => by
    cases hm : matchChoiceAt (c :: cs) with
    | some n0 =>
      have hfc : findChoice (c :: cs) = some n0 := by
        rw [findChoice_cons, hm]
      constructor
      · intro h
        rw [hfc] at h
        exact absurd h (by simp)
      · intro h
        exact absurd ((matchChoiceAt_iff (c :: cs) n0).mp hm) (h 0 n0)
    | none =>
      have hfc : findChoice (c :: cs) = findChoice cs := by
        rw [findChoice_cons, hm]
      rw [hfc, findChoice_eq_none_iff cs]
      constructor
      · intro h i m
        cases i with
        | zero =>
          intro hmark
          exact absurd ((matchChoiceAt_iff (c :: cs) m).mpr hmark) (by rw [hm]; simp)
        | succ j =>
          rw [choiceMarkerAt_cons_succ]
          exact h j m
      · intro h i m
        have h2 := h (i + 1) m
        rwa [choiceMarkerAt_cons_succ] at h2

theorem findChoice_eq_some_iff : ∀ (text : List Char) (n : Nat),
    findChoice text = some n ↔
      ∃ i, ChoiceMarkerAt text i n ∧ ∀ j m, ChoiceMarkerAt text j m → i ≤ j
  | [], n => by
    constructor
    · intro h
      exact absurd h (by simp [findChoice])
    · rintro ⟨i, hm, -⟩
      exact absurd hm (choiceMarkerAt_nil i n)
  | c :: cs, n => by
    cases hm : matchChoiceAt (c :: cs) with
    | some n0 =>
      have hfc : findChoice (c :: cs) = some n0 := by
        rw [findChoice_cons, hm]
      rw [hfc]
      have hmark0 : ChoiceMarkerAt (c :: cs) 0 n0 := (matchChoiceAt_iff _ n0).mp hm
      constructor
      · intro h
        injection h with h
        subst h
        exact ⟨0, hmark0, fun j m _ => Nat.zero_le j⟩
      · rintro ⟨i, hmark, hmin⟩
        have hi0 : i = 0 := Nat.le_antisymm (hmin 0 n0 hmark0) (Nat.zero_le i)
        subst hi0
        have hsome : matchChoiceAt (c :: cs) = some n := (matchChoiceAt_iff _ n).mpr hmark
        rw [hm] at hsome
        injection hsome with h2
        rw [h2]
    | none =>
      have hfc : findChoice (c :: cs) = findChoice cs := by
        rw [findChoice_cons, hm]
      rw [hfc, findChoice_eq_some_iff cs n]
      constructor
      · rintro ⟨i, hmark, hmin⟩
        refine ⟨i + 1, (choiceMarkerAt_cons_succ c cs i n).mpr hmark, ?_⟩
        intro j m hj
        cases j with
        | zero =>
          exact absurd ((matchChoiceAt_iff (c :: cs) m).mpr hj) (by rw [hm]; simp)
        | succ j2 =>
          have hle := hmin j2 m ((choiceMarkerAt_cons_succ c cs j2 m).mp hj)
          omega
      · rintro ⟨i, hmark, hmin⟩
        cases i with
        | zero =>
          exact absurd ((matchChoiceAt_iff (c :: cs) n).mpr hmark) (by rw [hm]; simp)
        | succ i2 =>
          refine ⟨i2, (choiceMarkerAt_cons_succ c cs i2 n).mp hmark, ?_⟩
          intro j m hj
          have hle := hmin (j + 1) m ((choiceMarkerAt_cons_succ c cs j m).mpr hj)
          omega

/-! ### Full-failure rounds and rank projections -/

theorem processGroups_all_fail (oracle : Nat → List String → List Char)
    (hfail : ∀ k g, findChoice (oracle k g) = none) :
    ∀ (gs : List (List String)) (w : List String) (sc : List (String × Nat)) (k ke : Nat),
    (∀ g, g ∈ gs → 2 ≤ g.length) →
    (processGroups oracle gs (RoundState.mk w sc k ke)).winners = w ∧
    (processGroups oracle gs (RoundState.mk w sc k ke)).scores = sc
  | [], w, sc, k, ke, _ => ⟨rfl, rfl⟩
  | g :: gs, w, sc, k, ke, hg => by
    have h2 : 2 ≤ g.length := hg g (List.mem_cons_self g gs)
    have hd : groupDecision oracle g k = (none, k + 5) := by
      rw [groupDecision_two oracle g k h2]
      exact pick_one_with_retry_all_fail oracle g 5 k
        (fun j _ => pick_one_none_of_findChoice_none (hfail (k + j) g))
    rw [processGroups_cons, processGroup_none oracle w sc k ke g (k + 5) hd]
    exact processGroups_all_fail oracle hfail gs w sc (k + 5) ke
      (fun g2 hg2 => hg g2 (List.mem_cons_of_mem _ hg2))

theorem rank_ranking_eq (oracle : Nat → List String → List Char)
    (shuffle : Nat → List String → List String) (ideas : List String) (gsize : Nat) :
    (rank oracle shuffle ideas gsize).ranking
      = pySorted (rankLoop oracle shuffle gsize ideas.length
          (RankState.mk ideas (initScores ideas) 1 0 0)).scores := rfl

theorem rank_scoresTable_eq (oracle : Nat → List String → List Char)
    (shuffle : Nat → List String → List String) (ideas : List String) (gsize : Nat) :
    (rank oracle shuffle ideas gsize).scoresTable
      = (rankLoop oracle shuffle gsize ideas.length
          (RankState.mk ideas (initScores ideas) 1 0 0)).scores := rfl

theorem rank_finalActive_eq (oracle : Nat → List String → List Char)
    (shuffle : Nat → List String → List String) (ideas : List String) (gsize : Nat) :
    (rank oracle shuffle ideas gsize).finalActive
      = (rankLoop oracle shuffle gsize ideas.length
          (RankState.mk ideas (initScores ideas) 1 0 0)).active := rfl

theorem rank_roundsRun_eq (oracle : Nat → List String → List Char)
    (shuffle : Nat → List String → List String) (ideas : List String) (gsize : Nat) :
    (rank oracle shuffle ideas gsize).roundsRun
      = (rankLoop oracle shuffle gsize ideas.length
          (RankState.mk ideas (initScores ideas) 1 0 0)).roundNumber - 1 := rfl

theorem rank_keyErrors_eq (oracle : Nat → List String → List Char)
    (shuffle : Nat → List String → List String) (ideas : List String) (gsize : Nat) :
    (rank oracle shuffle ideas gsize).keyErrors
      = (rankLoop oracle shuffle gsize ideas.length
          (RankState.mk ideas (initScores ideas) 1 0 0)).keyErrors := rfl

theorem rank_callerList_eq (oracle : Nat → List String → List Char)
    (shuffle : Nat → List String → List String) (ideas : List String) (gsize : Nat) :
    (rank oracle shuffle ideas gsize).callerList
      = (if 1 < ideas.length then shuffle 1 ideas else ideas) := rfl

/-! ### Claim theorems -/

/-- Claim C1: for every input candidate list and every oracle and shuffle
behavior, the ranking returned by `rank` lists exactly the distinct
candidates of the input, each appearing exactly once (scores are natural
numbers, hence non-negative); the score table's key set equals the
distinct original candidates in first-occurrence order at the end of the
run, and the group loop never adds or removes score-table entries, so
the domain is preserved throughout the run. -/
theorem rank_complete_ranking (oracle : Nat → List String → List Char)
    (shuffle : Nat → List String → List String) (ideas : List String) (gsize : Nat) :
    ((rank oracle shuffle ideas gsize).ranking.map Prod.fst).Perm (firstDedup ideas) ∧
    ((rank oracle shuffle ideas gsize).ranking.map Prod.fst).Nodup ∧
    (∀ s, s ∈ (rank oracle shuffle ideas gsize).ranking.map Prod.fst ↔ s ∈ ideas) ∧
    (rank oracle shuffle ideas gsize).scoresTable.map Prod.fst = firstDedup ideas ∧
    (∀ gs w sc k ke, (processGroups oracle gs (RoundState.mk w sc k ke)).scores.map Prod.fst
        = sc.map Prod.fst) := by
  have hkeys : (rank oracle shuffle ideas gsize).scoresTable.map Prod.fst
      = firstDedup ideas := by
    rw [rank_scoresTable_eq, rankLoop_keys]
    exact initScores_keys ideas
  have hperm : ((rank oracle shuffle ideas gsize).ranking.map Prod.fst).Perm
      (firstDedup ideas) := by
    have h2 := (pySorted_perm (rank oracle shuffle ideas gsize).scoresTable).map Prod.fst
    rw [hkeys] at h2
    exact h2
  refine ⟨hperm, hperm.nodup_iff.mpr (firstDedup_nodup ideas), ?_, hkeys,
    fun gs w sc k ke => processGroups_keys oracle gs w sc k ke⟩
  intro s
  rw [hperm.mem_iff]
  exact mem_firstDedup s ideas

/-- Claim C4: for a single-candidate input, `rank` returns exactly that
candidate with score 0, runs zero rounds, and makes zero oracle calls. -/
theorem rank_single_candidate (oracle : Nat → List String → List Char)
    (shuffle : Nat → List String → List String) (gsize : Nat) (c : String) :
    rank oracle shuffle [c] gsize = RankResult.mk [(c, 0)] [(c, 0)] [c] 0 0 0 [c] := rfl

/-- Claim C5: for a positive group size, the grouping function partitions
the list into contiguous groups (their concatenation in order is the list),
every group except the last has exactly the maximal size, the last has
between 1 and the maximal size, and in particular a 10-element list with
group size 4 yields group sizes 4, 4, 2. -/
theorem groups_partition_spec {α : Type} (n : Nat) (l : List α)
    (hn : 1 ≤ n) (hl : l ≠ []) :
    (groupsOf n l).flatten = l ∧
    (∀ g, g ∈ (groupsOf n l).dropLast → g.length = n) ∧
    (∀ g, (groupsOf n l).getLast? = some g → 1 ≤ g.length ∧ g.length ≤ n) ∧
    (groupsOf 4 (List.range 10)).map List.length = [4, 4, 2] := by
  have hs := groupsOf_sizes_aux n hn l.length l le_rfl hl
  exact ⟨groupsOf_flatten n hn l, hs.1, hs.2, by rfl⟩

/-- Witness for C5 at group size 4 and the 10-element list 0..9. -/
theorem groups_partition_spec_witness :
    (1 ≤ 4 ∧ (List.range 10 : List Nat) ≠ []) ∧
    (groupsOf 4 (List.range 10)).flatten = List.range 10 :=
  ⟨⟨by decide, by decide⟩,
    (groups_partition_spec 4 (List.range 10) (by decide) (by decide)).1⟩

/-- Claim C8: the list returned by `rank` is sorted by score in descending
order, and candidates with equal scores appear in score-table iteration
order, which is the insertion order: the first-occurrence order of
candidates in the original input. -/
theorem rank_output_sorted (oracle : Nat → List String → List Char)
    (shuffle : Nat → List String → List String) (ideas : List String) (gsize : Nat) :
    List.Sorted (fun a b : String × Nat => b.2 ≤ a.2)
      (rank oracle shuffle ideas gsize).ranking ∧
    (∀ n : Nat, (rank oracle shuffle ideas gsize).ranking.filter (fun q => q.2 == n)
        = (rank oracle shuffle ideas gsize).scoresTable.filter (fun q => q.2 == n)) ∧
    (rank oracle shuffle ideas gsize).scoresTable.map Prod.fst = firstDedup ideas := by
  refine ⟨pySorted_sorted _, fun n => filter_pySorted n _, ?_⟩
  rw [rank_scoresTable_eq, rankLoop_keys]
  exact initScores_keys ideas

/-- Claim C9: the defensive `except KeyError` branch guarding the score
increment is unreachable: whenever the shuffle produces permutations (as
`random.shuffle` does), every group winner is in the score table's domain,
so the run performs zero `KeyError` skips. -/
theorem keyerror_guard_unreachable (oracle : Nat → List String → List Char)
    (shuffle : Nat → List String → List String) (ideas : List String) (gsize : Nat)
    (hsh : ∀ r l, (shuffle r l).Perm l) :
    (rank oracle shuffle ideas gsize).keyErrors = 0 := by
  rw [rank_keyErrors_eq]
  apply rankLoop_keyErrors oracle shuffle gsize hsh
  intro s hs
  rw [hasKey_iff]
  show s ∈ (initScores ideas).map Prod.fst
  rw [initScores_keys]
  exact (mem_firstDedup s ideas).mpr hs

/-- Witness for C9: a concrete run with an always-failing oracle and the
identity shuffle performs zero KeyError skips. -/
theorem keyerror_guard_unreachable_witness :
    (rank (fun _ _ => []) (fun _ (l : List String) => l) ["a", "b"] 2).keyErrors = 0 :=
  keyerror_guard_unreachable (fun _ _ => []) (fun _ l => l) ["a", "b"] 2
    (fun _ l => List.Perm.refl l)

/-- Claim C10: `rank` mutates its input list object: the caller's list is
shuffled in place during round 1 (later rounds shuffle fresh winner lists
after the rebinding of the loop variable), so for an input with more than
one element the caller's list afterwards is the round-1 shuffle of the
input, a permutation of it, and in general a different list, as the
concrete reverse-shuffle run shows. -/
theorem rank_shuffles_caller_list (oracle : Nat → List String → List Char)
    (shuffle : Nat → List String → List String) (ideas : List String) (gsize : Nat)
    (hsh : ∀ r l, (shuffle r l).Perm l) (hlen : 1 < ideas.length) :
    (rank oracle shuffle ideas gsize).callerList = shuffle 1 ideas ∧
    ((rank oracle shuffle ideas gsize).callerList).Perm ideas ∧
    (rank (fun _ _ => []) (fun _ l => l.reverse) ["a", "b"] 2).callerList ≠ ["a", "b"] := by
  rw [rank_callerList_eq, if_pos hlen]
  exact ⟨rfl, hsh 1 ideas, by decide⟩

/-- Witness for C10 at a concrete two-element input with the reversing
shuffle. -/
theorem rank_shuffles_caller_list_witness :
    1 < (["a", "b"] : List String).length ∧
    (rank (fun _ _ => []) (fun _ (l : List String) => l.reverse) ["a", "b"] 2).callerList
      = (fun _ (l : List String) => l.reverse) 1 ["a", "b"] :=
  ⟨by decide, (rank_shuffles_caller_list (fun _ _ => []) (fun _ l => l.reverse)
    ["a", "b"] 2 (fun _ l => List.reverse_perm l) (by decide)).1⟩

theorem pick_one_eq (ideas : List String) (txt : List Char) (n : Nat)
    (hfc : findChoice txt = some n) :
    pick_one ideas txt =
      if ((n : Int) - 1 < 0) ∨ ((ideas.length : Int) ≤ (n : Int) - 1) then none
      else ideas[((n : Int) - 1).toNat]? := by
  unfold pick_one
  rw [hfc]

/-- Claim C2: for every response text and group of size at least 2, the
decision function returns the candidate at 0-indexed position n - 1 where
n is the integer of the leftmost occurrence of the marker CHOICE(n) in the
text, provided 1 <= n <= group size; if no marker occurs anywhere in the
text, or the leftmost marker's integer is 0 or exceeds the group size, it
returns no decision (`none`) instead of failing. -/
theorem pick_one_choice_spec (ideas : List String) (txt : List Char)
    (hn : 2 ≤ ideas.length) :
    ((∀ i m, ¬ ChoiceMarkerAt txt i m) → pick_one ideas txt = none) ∧
    (∀ i n, ChoiceMarkerAt txt i n → (∀ j m, ChoiceMarkerAt txt j m → i ≤ j) →
      ((1 ≤ n → n ≤ ideas.length →
          ∃ c, ideas[n - 1]? = some c ∧ pick_one ideas txt = some c) ∧
       (n = 0 → pick_one ideas txt = none) ∧
       (ideas.length < n → pick_one ideas txt = none))) := by
  constructor
  · intro h
    exact pick_one_none_of_findChoice_none ((findChoice_eq_none_iff txt).mpr h)
  · intro i n hmark hmin
    have hfc : findChoice txt = some n :=
      (findChoice_eq_some_iff txt n).mpr ⟨i, hmark, hmin⟩
    refine ⟨?_, ?_, ?_⟩
    · intro h1 h2
      have hlt : n - 1 < ideas.length := by omega
      refine ⟨ideas[n - 1], List.getElem?_eq_getElem hlt, ?_⟩
      rw [pick_one_eq ideas txt n hfc]
      have hcond : ¬ (((n : Int) - 1 < 0) ∨ ((ideas.length : Int) ≤ (n : Int) - 1)) := by
        push_neg
        constructor <;> omega
      rw [if_neg hcond]
      have ht : ((n : Int) - 1).toNat = n - 1 := by omega
      rw [ht]
      exact List.getElem?_eq_getElem hlt
    · intro h0
      subst h0
      rw [pick_one_eq ideas txt 0 hfc, if_pos]
      left
      omega
    · intro hgt
      rw [pick_one_eq ideas txt n hfc, if_pos]
      right
      omega

/-- Witness for C2: a concrete marker-free response yields no decision for
a concrete 2-element group. -/
theorem pick_one_choice_spec_witness :
    2 ≤ (["a", "b"] : List String).length ∧
    pick_one ["a", "b"] ("no marker here".toList) = none :=
  ⟨by decide, (pick_one_choice_spec ["a", "b"] ("no marker here".toList) (by decide)).1
    ((findChoice_eq_none_iff ("no marker here".toList)).mp (by rfl))⟩

/-- Claim C6: for every group of size at least 2, the ranker consults the
oracle at most `retries` times (the source default is 5), posing the same
group on each attempt, stops at the first decisive attempt, and when every
attempt yields no decision the group contributes no winner: its members do
not advance and no score is incremented (group processing only advances
the call counter by 5). -/
theorem retry_policy_spec (oracle : Nat → List String → List Char)
    (g : List String) (retries k : Nat) (hg : 2 ≤ g.length) :
    (k ≤ (pick_one_with_retry oracle g retries k).2 ∧
     (pick_one_with_retry oracle g retries k).2 ≤ k + retries) ∧
    ((∀ j, j < retries → pick_one g (oracle (k + j) g) = none) →
      pick_one_with_retry oracle g retries k = (none, k + retries)) ∧
    (∀ j c, j < retries → pick_one g (oracle (k + j) g) = some c →
      (∀ i, i < j → pick_one g (oracle (k + i) g) = none) →
      pick_one_with_retry oracle g retries k = (some c, k + j + 1)) ∧
    (∀ w sc ke, (∀ j, j < 5 → pick_one g (oracle (k + j) g) = none) →
      processGroup oracle (RoundState.mk w sc k ke) g = RoundState.mk w sc (k + 5) ke) := by
  refine ⟨pick_one_with_retry_calls_bound oracle g retries k,
    pick_one_with_retry_all_fail oracle g retries k,
    fun j c hj hc hfail =>
      pick_one_with_retry_first_success oracle g retries k j c hj hc hfail,
    ?_⟩
  intro w sc ke hfail
  have hd : groupDecision oracle g k = (none, k + 5) := by
    rw [groupDecision_two oracle g k hg]
    exact pick_one_with_retry_all_fail oracle g 5 k hfail
  exact processGroup_none oracle w sc k ke g (k + 5) hd

/-- Witness for C6 at a concrete 2-element group with a decisive oracle. -/
theorem retry_policy_spec_witness :
    2 ≤ (["a", "b"] : List String).length ∧
    (0 ≤ (pick_one_with_retry (fun _ _ => "CHOICE(1)".toList) ["a", "b"] 5 0).2 ∧
     (pick_one_with_retry (fun _ _ => "CHOICE(1)".toList) ["a", "b"] 5 0).2 ≤ 0 + 5) :=
  ⟨by decide,
    (retry_policy_spec (fun _ _ => "CHOICE(1)".toList) ["a", "b"] 5 0 (by decide)).1⟩

/-- Claim C7: in every round, when every shuffled candidate is a key of the
score table (the invariant of the run), the total increase of the scores
during the round equals the number of groups that produced a winner
(including size-1 groups that auto-advance), and each candidate's score
grows by exactly the number of groups it won. -/
theorem round_score_increments (oracle : Nat → List String → List Char)
    (gsize : Nat) (shuffled : List String) (scores : List (String × Nat)) (k ke : Nat)
    (hmem : ∀ s, s ∈ shuffled → hasKey scores s = true) :
    scoreSum (processRound oracle gsize shuffled scores k ke).scores
      = scoreSum scores
        + ((groupDecisions oracle k (groupsOf gsize shuffled)).filter Option.isSome).length ∧
    (∀ s, getScore (processRound oracle gsize shuffled scores k ke).scores s
      = getScore scores s + ((processRound oracle gsize shuffled scores k ke).winners.count s)) ∧
    (processRound oracle gsize shuffled scores k ke).winners
      = (groupDecisions oracle k (groupsOf gsize shuffled)).filterMap id := by
  have hmem2 : ∀ g, g ∈ groupsOf gsize shuffled → ∀ s, s ∈ g → hasKey scores s = true :=
    fun g hg s hs => hmem s (mem_of_mem_groupsOf hg hs)
  obtain ⟨hw, hsum, hget, -⟩ :=
    processGroups_spec oracle (groupsOf gsize shuffled) [] scores k ke hmem2
  have hw2 : (processRound oracle gsize shuffled scores k ke).winners
      = (groupDecisions oracle k (groupsOf gsize shuffled)).filterMap id := by
    unfold processRound
    rw [hw]
    exact List.nil_append _
  refine ⟨?_, ?_, hw2⟩
  · unfold processRound
    exact hsum
  · intro s
    rw [hw2]
    unfold processRound
    exact hget s

/-- Witness for C7 at a concrete round: two candidates, one group, a
decisive oracle. -/
theorem round_score_increments_witness :
    (∀ s, s ∈ (["a", "b"] : List String) → hasKey [("a", 0), ("b", 0)] s = true) ∧
    scoreSum (processRound (fun _ _ => "CHOICE(1)".toList) 2 ["a", "b"]
        [("a", 0), ("b", 0)] 0 0).scores
      = scoreSum [("a", 0), ("b", 0)]
        + ((groupDecisions (fun _ _ => "CHOICE(1)".toList) 0
            (groupsOf 2 ["a", "b"])).filter Option.isSome).length :=
  ⟨by decide,
    (round_score_increments (fun _ _ => "CHOICE(1)".toList) 2 ["a", "b"]
      [("a", 0), ("b", 0)] 0 0 (by decide)).1⟩

/-- Claim C3: for every finite candidate list, group size at least 2 and
permuting shuffle, `rank` terminates with at most one active candidate;
moreover if every oracle response is unparseable, the input has at least
two candidates, and every round-1 group has size at least 2 (so no group
auto-advances), the active set becomes empty after round 1 and the loop
ends in that valid terminal state. -/
theorem rank_terminates (oracle : Nat → List String → List Char)
    (shuffle : Nat → List String → List String) (ideas : List String) (gsize : Nat)
    (hg : 2 ≤ gsize) (hsh : ∀ r l, (shuffle r l).Perm l) :
    (rank oracle shuffle ideas gsize).finalActive.length ≤ 1 ∧
    ((∀ k g, findChoice (oracle k g) = none) → 2 ≤ ideas.length →
      (∀ g, g ∈ groupsOf gsize (shuffle 1 ideas) → 2 ≤ g.length) →
      (rank oracle shuffle ideas gsize).finalActive = [] ∧
      (rank oracle shuffle ideas gsize).roundsRun = 1) := by
  constructor
  · rw [rank_finalActive_eq]
    exact rankLoop_term oracle shuffle gsize hg hsh ideas.length _ le_rfl
  · intro hfail hlen hgroups
    obtain ⟨f, hf⟩ : ∃ f, ideas.length = f + 2 := ⟨ideas.length - 2, by omega⟩
    have hstop : ¬ (RankState.mk ideas (initScores ideas) 1 0 0).active.length ≤ 1 := by
      dsimp only
      omega
    have hwin : (processRound oracle gsize (shuffle 1 ideas) (initScores ideas) 0 0).winners
        = [] := by
      unfold processRound
      exact (processGroups_all_fail oracle hfail (groupsOf gsize (shuffle 1 ideas))
        [] (initScores ideas) 0 0 hgroups).1
    have hstep := rankLoop_step oracle shuffle gsize (f + 1)
      (RankState.mk ideas (initScores ideas) 1 0 0) hstop
    rw [rank_finalActive_eq, rank_roundsRun_eq, hf, hstep]
    rw [rankLoop_stop oracle shuffle gsize (f + 1) _ (by dsimp only; rw [hwin]; decide)]
    dsimp only
    rw [hwin]
    exact ⟨rfl, rfl⟩

/-- Witness for C3 at a concrete two-element input with an unparseable
oracle and the identity shuffle. -/
theorem rank_terminates_witness :
    2 ≤ 2 ∧
    (rank (fun _ _ => []) (fun _ (l : List String) => l) ["a", "b"] 2).finalActive.length ≤ 1 :=
  ⟨by decide,
    (rank_terminates (fun _ _ => []) (fun _ l => l) ["a", "b"] 2 (by decide)
      (fun _ l => List.Perm.refl l)).1⟩
